import Mathlib

/- Verification of the tdlib growable-buffer / string-view core (src/tdlib.h).

   Shallow embedding conventions:
   * `size_t` values are modelled as `Nat`; the one place where unsigned
     wraparound is reachable with realistic inputs (the `end - start`
     subtraction in `td_string_view_slice`) uses `sub64`, subtraction
     modulo 2^64.
   * A vector/string `data` pointer is `Option (List α)`: `none` is NULL,
     `some d` is an allocation whose cells hold `d` (length = `alloc` for
     well-formed states).  `TD_REALLOC` to `n` cells keeps the old prefix
     and leaves fresh cells unspecified (modelled by `default`).
   * A view's `data` pointer is a base list plus an offset `off`;
     pointer arithmetic becomes arithmetic on `off`.
   * The file-I/O environment of `td_read_file_to_string` (seek outcome,
     `ftell` result, file bytes) is an explicit `FileEnv` record; `fread`
     from the start of the file delivers `min requested fileLength` bytes.
-/

/-- `TD_VECINITSZ` default (tdlib.h line 226). -/
def TD_VECINITSZ : Nat := 1024

/-- 2^64, the modulus of `size_t` arithmetic on the modelled platform. -/
def W64 : Nat := 2 ^ 64

/-- `size_t` subtraction: `a - b` modulo 2^64 (wraps around on underflow). -/
def sub64 (a b : Nat) : Nat := (a + (W64 - b % W64)) % W64

/-- `struct vec_T { T *data; size_t size, alloc; }` (tdlib.h lines 83-86),
    also the layout of `TD_String` (lines 271-274). -/
structure TDVec (α : Type) where
  data : Option (List α)
  size : Nat
  alloc : Nat
deriving Repr, DecidableEq

/-- `struct vec_T my_vector = {0};` — the all-zero initial state. -/
def vec0 (α : Type) : TDVec α := ⟨none, 0, 0⟩

/-- Well-formedness of a C vector state: the allocation really has `alloc`
    cells (`none` counts as 0 cells) and at most `alloc` of them are live. -/
def TDVec.wf (v : TDVec α) : Prop :=
  v.size ≤ v.alloc ∧ (v.data.getD []).length = v.alloc

instance (v : TDVec α) : Decidable v.wf := by
  unfold TDVec.wf; infer_instance

/-- The live elements `data[0 .. size)` of a vector. -/
def liveElems (v : TDVec α) : List α := (v.data.getD []).take v.size

/-- The doubling loop of `td__vec_alloc`:
    `while (capacity > alloc) alloc *= 2;` (tdlib.h line 246).
    The C loop does not terminate when `alloc = 0`, but both call sites in
    the macro reach it with `alloc > 0` (line 245 replaces 0 by
    `TD_VECINITSZ` first); the `0 < alloc` guard records that. -/
def growLoop (capacity alloc : Nat) : Nat :=
  if h : 0 < alloc ∧ alloc < capacity then growLoop capacity (alloc * 2)
  else alloc
termination_by capacity - alloc
decreasing_by omega

/-- `TD_REALLOC(data, n * sizeof *data)`: the old cells survive up to `n`,
    any fresh cells hold unspecified junk. -/
def padTo (l : List α) (n : Nat) (junk : α) : List α :=
  l.take n ++ List.replicate (n - l.length) junk

/-- `td__vec_alloc(vector, capacity)` (tdlib.h lines 242-253), in the run
    where `TD_REALLOC` succeeds. -/
def td__vec_alloc [Inhabited α] (v : TDVec α) (capacity : Nat) : TDVec α :=
  if capacity > v.alloc then
    let a1 := if v.alloc = 0 then TD_VECINITSZ else v.alloc
    let a2 := growLoop capacity a1
    { data := some (padTo (v.data.getD []) a2 default), size := v.size, alloc := a2 }
  else v

/-- `td__vec_alloc(vector, capacity)` in the run where `TD_REALLOC` fails
    (returns NULL): the result is the vector state observed at the
    `TD_PANIC` on line 250, or `none` when no reallocation is attempted
    (then no failure is possible). -/
def td__vec_allocFail (v : TDVec α) (capacity : Nat) : Option (TDVec α) :=
  if capacity > v.alloc then
    let a1 := if v.alloc = 0 then TD_VECINITSZ else v.alloc
    let a2 := growLoop capacity a1
    some { data := none, size := v.size, alloc := a2 }
  else none

/-- `td_vec_append(vector, item)` (tdlib.h lines 255-259), successful run. -/
def td_vec_append [Inhabited α] (v : TDVec α) (item : α) : TDVec α :=
  let v1 := td__vec_alloc v (v.size + 1)
  { data := v1.data.map (fun d => d.set v1.size item),
    size := v1.size + 1, alloc := v1.alloc }

/-- `memcpy(data + pos, items, count * sizeof *data)` on a cell list. -/
def memcpyAt (d : List α) (pos : Nat) (items : List α) : List α :=
  d.take pos ++ items ++ d.drop (pos + items.length)

/-- `td_vec_append_bulk(vector, items, count)` (tdlib.h lines 261-268),
    successful run. -/
def td_vec_append_bulk [Inhabited α] (v : TDVec α) (items : List α) : TDVec α :=
  let v1 := td__vec_alloc v (v.size + items.length)
  { data := v1.data.map (fun d => memcpyAt d v1.size items),
    size := v1.size + items.length, alloc := v1.alloc }

/-- Caller-side truncation, `my_vector.size -= M;` (tdlib.h line 111). -/
def td_vec_truncate (v : TDVec α) (M : Nat) : TDVec α :=
  { v with size := v.size - M }

/-- A sequence of single `td_vec_append` calls, left to right. -/
def appendList [Inhabited α] (v : TDVec α) (items : List α) : TDVec α :=
  items.foldl td_vec_append v

/-- `TD_String` (tdlib.h lines 271-274): a byte vector; bytes as `Nat`. -/
abbrev TD_String := TDVec Nat

/-- An all-zero `TD_String`. -/
def str0 : TD_String := ⟨none, 0, 0⟩

/-- `TD_String_View` (tdlib.h lines 276-279): `data` is `base` plus the
    pointer offset `off`; `size` is the `size` field (a `size_t`, so an
    arbitrary `Nat` in the model — it can hold wrapped values). -/
structure TD_String_View where
  base : List Nat
  off : Nat
  size : Nat
deriving Repr, DecidableEq

/-- `v.data[i]`: the byte at offset `i` from the view's data pointer. -/
def byteAt (v : TD_String_View) (i : Nat) : Nat := v.base.getD (v.off + i) 0

/-- The byte sequence a view denotes. -/
def viewBytes (v : TD_String_View) : List Nat := (v.base.drop v.off).take v.size

/-- Well-formedness of a view: it lies inside its base storage. -/
def TD_String_View.wf (v : TD_String_View) : Prop := v.off + v.size ≤ v.base.length

instance (v : TD_String_View) : Decidable v.wf := by
  unfold TD_String_View.wf; infer_instance

/-- `td_string_view_from_string` (tdlib.h lines 314-318):
    `{ str->data, str->size }`. -/
def td_string_view_from_string (s : TD_String) : TD_String_View :=
  ⟨s.data.getD [], 0, s.size⟩

/-- `td_string_view_slice(v, start, end)` (tdlib.h lines 335-342):
    `if (start > end) start = end; if (end > v.size) end = v.size;`
    then `{ v.data + start, end - start }` with `size_t` subtraction. -/
def td_string_view_slice (v : TD_String_View) (start stop : Nat) : TD_String_View :=
  let start1 := if start > stop then stop else start
  let stop1 := if stop > v.size then v.size else stop
  ⟨v.base, v.off + start1, sub64 stop1 start1⟩

/-- The scan of `td_string_view_chop` (tdlib.h line 348):
    `while (i < v->size && v->data[i] != delim) i++;`. -/
def chopLoop (v : TD_String_View) (delim : Nat) (i : Nat) : Nat :=
  if h : i < v.size ∧ byteAt v i ≠ delim then chopLoop v delim (i + 1)
  else i
termination_by v.size - i
decreasing_by omega

/-- `td_string_view_chop(v, delim)` (tdlib.h lines 344-361): first
    component is the returned prefix `out`, second is the mutated `*v`. -/
def td_string_view_chop (v : TD_String_View) (delim : Nat) :
    TD_String_View × TD_String_View :=
  let i := chopLoop v delim 0
  let out : TD_String_View := ⟨v.base, v.off, i⟩
  if i < v.size then
    (out, ⟨v.base, v.off + (i + 1), v.size - (i + 1)⟩)
  else
    (out, ⟨v.base, v.off + i, 0⟩)

/-- `td_string_slice(str, start, end)` (tdlib.h lines 387-397):
    `if (start > str->size) start = str->size;
     if (end > str->size) end = str->size;
     if (end < start) end = start;`
    then `{ str->data + start, end - start }`. -/
def td_string_slice (s : TD_String) (start stop : Nat) : TD_String_View :=
  let start1 := if start > s.size then s.size else start
  let stop1 := if stop > s.size then s.size else stop
  let stop2 := if stop1 < start1 then start1 else stop1
  ⟨s.data.getD [], start1, sub64 stop2 start1⟩

/-- The file-I/O environment a single `td_read_file_to_string` call runs
    against: the file's bytes, whether `fseek(fp, 0, SEEK_END)` fails, and
    the `long` that `ftell` then returns. -/
structure FileEnv where
  contents : List Nat
  seekFails : Bool
  tellResult : Int
deriving Repr, DecidableEq

/-- The conversion of the `long` returned by `ftell` to the `i32` local
    `file_size` (tdlib.h lines 402, 408): two's-complement wrap to 32 bits. -/
def toI32 (t : Int) : Int := (t + 2 ^ 31) % 2 ^ 32 - 2 ^ 31

/-- `td_read_file_to_string(str, fp)` (tdlib.h lines 399-421).  After the
    `rewind`, `fread(str->data, 1, file_size, fp)` delivers
    `min file_size contents.length` bytes from the start of the file into
    the buffer.  Returns the C `bool` result and the final `*str`. -/
def td_read_file_to_string (str : TD_String) (env : FileEnv) : Bool × TD_String :=
  if env.seekFails then (false, str)
  else
    let file_size : Int := toI32 env.tellResult
    if file_size < 0 then (false, str)
    else
      let L : Nat := file_size.toNat
      let str1 := td__vec_alloc str L
      let nread : Nat := min L env.contents.length
      let str2 : TD_String :=
        { str1 with data := str1.data.map (fun d => memcpyAt d 0 (env.contents.take nread)) }
      if nread ≠ L then (false, str2)
      else (true, { str2 with size := nread })

theorem growLoop_ge_self (capacity a : Nat) : a ≤ growLoop capacity a := by
  rw [growLoop]
  split
  next h => exact Nat.le_trans (by omega) (growLoop_ge_self capacity (a * 2))
  next h => exact Nat.le_refl a
termination_by capacity - a
decreasing_by omega

theorem growLoop_ge_cap (capacity a : Nat) (h0 : 0 < a) :
    capacity ≤ growLoop capacity a := by
  rw [growLoop]
  split
  next h => exact growLoop_ge_cap capacity (a * 2) (by omega)
  next h => omega
termination_by capacity - a
decreasing_by omega

theorem growLoop_pow2 (capacity c k : Nat) :
    ∃ j, growLoop capacity (c * 2 ^ k) = c * 2 ^ j := by
  rw [growLoop]
  split
  next h =>
    have h2 : c * 2 ^ k * 2 = c * 2 ^ (k + 1) := by ring
    rw [h2]
    exact growLoop_pow2 capacity c (k + 1)
  next => exact ⟨k, rfl⟩
termination_by capacity - c * 2 ^ k
decreasing_by
  have _h2 : c * 2 ^ (k + 1) = c * 2 ^ k * 2 := by ring
  omega

theorem growLoop_stop (capacity a : Nat) (h : ¬(0 < a ∧ a < capacity)) :
    growLoop capacity a = a := by
  rw [growLoop]
  split
  next h2 => exact absurd h2 h
  next => rfl

theorem initAlloc_pos (a : Nat) : 0 < (if a = 0 then TD_VECINITSZ else a) := by
  split
  · simp [TD_VECINITSZ]
  · omega

theorem initAlloc_ge (a : Nat) : a ≤ (if a = 0 then TD_VECINITSZ else a) := by
  split
  · omega
  · omega

theorem wf_data_some {v : TDVec α} (hwf : v.wf) (h : 0 < v.alloc) :
    ∃ d, v.data = some d ∧ d.length = v.alloc := by
  cases hd : v.data with
  | none =>
    exfalso
    have h2 := hwf.2
    rw [hd] at h2
    simp at h2
    omega
  | some d =>
    refine ⟨d, rfl, ?_⟩
    have h2 := hwf.2
    rw [hd] at h2
    simpa using h2

theorem td__vec_alloc_size [Inhabited α] (v : TDVec α) (c : Nat) :
    (td__vec_alloc v c).size = v.size := by
  unfold td__vec_alloc
  split <;> rfl

theorem td__vec_alloc_alloc_ge [Inhabited α] (v : TDVec α) (c : Nat) :
    c ≤ (td__vec_alloc v c).alloc ∧ v.alloc ≤ (td__vec_alloc v c).alloc := by
  unfold td__vec_alloc
  split
  next h =>
    constructor
    · exact growLoop_ge_cap c _ (initAlloc_pos v.alloc)
    · exact Nat.le_trans (initAlloc_ge v.alloc) (growLoop_ge_self c _)
  next h => omega

theorem td__vec_alloc_grow [Inhabited α] (v : TDVec α) (c : Nat) (h : v.alloc < c) :
    td__vec_alloc v c =
      { data := some (padTo (v.data.getD [])
                  (growLoop c (if v.alloc = 0 then TD_VECINITSZ else v.alloc)) default),
        size := v.size,
        alloc := growLoop c (if v.alloc = 0 then TD_VECINITSZ else v.alloc) } := by
  unfold td__vec_alloc
  rw [if_pos h]

theorem td__vec_alloc_wf [Inhabited α] {v : TDVec α} (hwf : v.wf) (c : Nat) :
    (td__vec_alloc v c).wf ∧ liveElems (td__vec_alloc v c) = liveElems v := by
  by_cases h : v.alloc < c
  · rw [td__vec_alloc_grow v c h]
    set d := v.data.getD [] with hd
    have hlen : d.length = v.alloc := hwf.2
    have ha1 : v.alloc ≤ (if v.alloc = 0 then TD_VECINITSZ else v.alloc) :=
      initAlloc_ge v.alloc
    have ha2 : (if v.alloc = 0 then TD_VECINITSZ else v.alloc) ≤
        growLoop c (if v.alloc = 0 then TD_VECINITSZ else v.alloc) :=
      growLoop_ge_self c _
    set a2 := growLoop c (if v.alloc = 0 then TD_VECINITSZ else v.alloc) with ha2d
    have hda : d.length ≤ a2 := by omega
    have hdt : d.take a2 = d := List.take_of_length_le hda
    have hsz : v.size ≤ d.length := by have := hwf.1; omega
    refine ⟨⟨by simpa using by omega, ?_⟩, ?_⟩
    · simp [padTo, hdt]
      omega
    · simp only [liveElems, padTo, hdt]
      simp [List.take_append_of_le_length hsz, hd]
  · unfold td__vec_alloc
    rw [if_neg (by omega)]
    exact ⟨hwf, rfl⟩

theorem take_set_succ (l : List α) (n : Nat) (x : α) (h : n < l.length) :
    (l.set n x).take (n + 1) = l.take n ++ [x] := by
  induction l generalizing n with
  | nil => simp at h
  | cons a t ih =>
    cases n with
    | zero => simp
    | succ m =>
      simp only [List.set_cons_succ, List.take_succ_cons, List.cons_append,
        List.cons.injEq, true_and]
      exact ih m (by simpa using h)

theorem td_vec_append_spec [Inhabited α] {v : TDVec α} (hwf : v.wf) (x : α) :
    (td_vec_append v x).size = v.size + 1 ∧ (td_vec_append v x).wf ∧
    liveElems (td_vec_append v x) = liveElems v ++ [x] ∧
    (td_vec_append v x).alloc = (td__vec_alloc v (v.size + 1)).alloc := by
  have hva := td__vec_alloc_wf hwf (v.size + 1)
  have hsz := td__vec_alloc_size v (v.size + 1)
  have hge := td__vec_alloc_alloc_ge v (v.size + 1)
  obtain ⟨d1, hd1, hd1len⟩ := wf_data_some hva.1 (by omega)
  have hlt : (td__vec_alloc v (v.size + 1)).size < d1.length := by omega
  simp only [td_vec_append, hd1, Option.map_some']
  refine ⟨by omega, ?_, ?_, by trivial⟩
  · unfold TDVec.wf
    refine ⟨?_, ?_⟩
    · simp only []
      omega
    · simp only [Option.getD_some, List.length_set]
      omega
  · simp only [liveElems, Option.getD_some]
    rw [take_set_succ d1 _ x hlt]
    have hlive : liveElems (td__vec_alloc v (v.size + 1)) = liveElems v := hva.2
    simp only [liveElems, hd1, Option.getD_some] at hlive
    rw [hlive]

theorem appendList_spec [Inhabited α] {v : TDVec α} (hwf : v.wf) (items : List α) :
    (appendList v items).size = v.size + items.length ∧ (appendList v items).wf ∧
    liveElems (appendList v items) = liveElems v ++ items := by
  induction items generalizing v with
  | nil => simpa [appendList] using hwf
  | cons x xs ih =>
    obtain ⟨ha1, hawf, halive, hallo⟩ := td_vec_append_spec hwf x
    obtain ⟨hr1, hrwf, hrlive⟩ := ih (v := td_vec_append v x) hawf
    simp only [appendList, List.foldl_cons] at hr1 hrlive ⊢
    refine ⟨by simp only [List.length_cons]; omega, hrwf, ?_⟩
    rw [hrlive, halive]
    simp

/-- The capacity invariant the growth policy maintains: zero, or the
    configured initial size times a power of two. -/
def allocInv (v : TDVec α) : Prop :=
  v.alloc = 0 ∨ ∃ k, v.alloc = TD_VECINITSZ * 2 ^ k

theorem td__vec_alloc_inv [Inhabited α] {v : TDVec α} (hinv : allocInv v) (c : Nat) :
    allocInv (td__vec_alloc v c) := by
  by_cases h : v.alloc < c
  · rw [td__vec_alloc_grow v c h]
    right
    rcases hinv with h0 | ⟨k, hk⟩
    · rw [h0]
      simp only [if_pos rfl]
      have he : TD_VECINITSZ = TD_VECINITSZ * 2 ^ 0 := by simp
      rw [he]
      exact growLoop_pow2 c TD_VECINITSZ 0
    · have hne : v.alloc ≠ 0 := by
        rw [hk]; simp [TD_VECINITSZ]
      simp only [if_neg hne]
      rw [hk]
      exact growLoop_pow2 c TD_VECINITSZ k
  · unfold td__vec_alloc
    rw [if_neg (by omega)]
    exact hinv

theorem appendList_inv [Inhabited α] {v : TDVec α} (hwf : v.wf) (hinv : allocInv v)
    (items : List α) : allocInv (appendList v items) := by
  induction items generalizing v with
  | nil => simpa [appendList] using hinv
  | cons x xs ih =>
    have ha := td_vec_append_spec hwf x
    have hainv : allocInv (td_vec_append v x) := by
      have := td__vec_alloc_inv hinv (v.size + 1)
      unfold allocInv at this ⊢
      rw [ha.2.2.2]
      exact this
    have := ih (v := td_vec_append v x) ha.2.1 hainv
    simpa [appendList] using this

theorem memcpyAt_nil (d : List α) (pos : Nat) : memcpyAt d pos [] = d := by
  simp [memcpyAt]

theorem td_vec_append_bulk_spec [Inhabited α] {v : TDVec α} (hwf : v.wf)
    (items : List α) :
    (td_vec_append_bulk v items).size = v.size + items.length ∧
    (td_vec_append_bulk v items).wf ∧
    liveElems (td_vec_append_bulk v items) = liveElems v ++ items := by
  have hva := td__vec_alloc_wf hwf (v.size + items.length)
  have hsz := td__vec_alloc_size v (v.size + items.length)
  have hge := td__vec_alloc_alloc_ge v (v.size + items.length)
  by_cases h0 : v.size + items.length = 0
  · have hit : items = [] := by
      cases items with
      | nil => rfl
      | cons a t => simp at h0
    have hvs : v.size = 0 := by omega
    subst hit
    have hv1 : td__vec_alloc v (v.size + ([] : List α).length) = v := by
      unfold td__vec_alloc
      rw [if_neg (by simp; omega)]
    simp only [td_vec_append_bulk, hv1]
    cases hd : v.data with
    | none =>
      refine ⟨by simp, ?_, ?_⟩
      · unfold TDVec.wf at hwf ⊢
        simpa [hd] using hwf
      · simp [liveElems, hd, hvs]
    | some dd =>
      refine ⟨by simp, ?_, ?_⟩
      · unfold TDVec.wf at hwf ⊢
        simpa [hd, memcpyAt_nil] using hwf
      · simp [liveElems, hd, hvs, memcpyAt_nil]
  · obtain ⟨d1, hd1, hd1len⟩ := wf_data_some hva.1 (by omega)
    have hs1 : (td__vec_alloc v (v.size + items.length)).size = v.size := hsz
    have hsle : v.size ≤ d1.length := by omega
    have htl : (d1.take (td__vec_alloc v (v.size + items.length)).size).length
        = v.size := by
      simp [List.length_take]
      omega
    simp only [td_vec_append_bulk, hd1, Option.map_some']
    refine ⟨by omega, ?_, ?_⟩
    · unfold TDVec.wf
      refine ⟨?_, ?_⟩
      · simp only []
        omega
      · simp only [Option.getD_some, memcpyAt, List.length_append,
          List.length_take, List.length_drop]
        omega
    · simp only [liveElems, Option.getD_some, memcpyAt]
      have hlen2 : (td__vec_alloc v (v.size + items.length)).size + items.length
          = (d1.take (td__vec_alloc v (v.size + items.length)).size ++ items).length := by
        simp [List.length_append, htl]
        omega
      rw [hlen2, List.take_left]
      have hlive : liveElems (td__vec_alloc v (v.size + items.length)) = liveElems v :=
        hva.2
      simp only [liveElems, hd1, Option.getD_some, hs1] at hlive
      rw [hs1, hlive]

theorem chopLoop_spec (v : TD_String_View) (d i : Nat) (hi : i ≤ v.size) :
    i ≤ chopLoop v d i ∧ chopLoop v d i ≤ v.size ∧
    (chopLoop v d i < v.size → byteAt v (chopLoop v d i) = d) ∧
    (∀ j, i ≤ j → j < chopLoop v d i → byteAt v j ≠ d) := by
  rw [chopLoop]
  split
  next h =>
    obtain ⟨h1, h2⟩ := h
    obtain ⟨g1, g2, g3, g4⟩ := chopLoop_spec v d (i + 1) (by omega)
    refine ⟨by omega, g2, g3, ?_⟩
    intro j hj1 hj2
    by_cases hj : j = i
    · subst hj
      exact h2
    · exact g4 j (by omega) hj2
  next h =>
    refine ⟨Nat.le_refl i, hi, ?_, ?_⟩
    · intro hlt
      exact not_not.mp (not_and.mp h hlt)
    · intro j hj1 hj2
      omega
termination_by v.size - i
decreasing_by omega

theorem viewBytes_length {v : TD_String_View} (hwf : v.wf) :
    (viewBytes v).length = v.size := by
  unfold viewBytes TD_String_View.wf at *
  simp only [List.length_take, List.length_drop]
  omega

theorem viewBytes_getD (v : TD_String_View) (j : Nat) (hj : j < v.size) :
    (viewBytes v).getD j 0 = byteAt v j := by
  unfold viewBytes byteAt
  rw [List.getD_eq_getElem?_getD, List.getD_eq_getElem?_getD]
  rw [List.getElem?_take, if_pos hj, List.getElem?_drop]

theorem viewBytes_take (v : TD_String_View) (i : Nat) (hi : i ≤ v.size) :
    viewBytes ⟨v.base, v.off, i⟩ = (viewBytes v).take i := by
  unfold viewBytes
  simp only [List.take_take]
  rw [Nat.min_eq_left hi]

theorem viewBytes_drop (v : TD_String_View) (k : Nat) :
    viewBytes ⟨v.base, v.off + k, v.size - k⟩ = (viewBytes v).drop k := by
  unfold viewBytes
  rw [List.drop_take, List.drop_drop]

theorem takeWhile_eq_take_of (l : List Nat) (d i : Nat) (hi : i ≤ l.length)
    (hbefore : ∀ j, j < i → l.getD j 0 ≠ d) (hat : i < l.length → l.getD i 0 = d) :
    l.takeWhile (fun b => b != d) = l.take i := by
  induction l generalizing i with
  | nil => simp
  | cons a t ih =>
    cases i with
    | zero =>
      have ha : a = d := by simpa using hat (by simp)
      subst ha
      simp
    | succ m =>
      have ha : a ≠ d := by simpa using hbefore 0 (by omega)
      rw [List.takeWhile_cons_of_pos (by simpa using ha), List.take_succ_cons]
      congr 1
      refine ih m (by simpa using hi) ?_ ?_
      · intro j hj
        simpa using hbefore (j + 1) (by omega)
      · intro hlt
        simpa using hat (by simpa using hlt)

theorem chopIdx_takeWhile {v : TD_String_View} (hwf : v.wf) (d : Nat) :
    (viewBytes v).takeWhile (fun b => b != d) = (viewBytes v).take (chopLoop v d 0) := by
  obtain ⟨g1, g2, g3, g4⟩ := chopLoop_spec v d 0 (by omega)
  refine takeWhile_eq_take_of _ d _ (by rw [viewBytes_length hwf]; exact g2) ?_ ?_
  · intro j hj
    rw [viewBytes_getD v j (by omega)]
    exact g4 j (by omega) hj
  · intro hlt
    rw [viewBytes_length hwf] at hlt
    rw [viewBytes_getD v _ hlt]
    exact g3 hlt

theorem chopIdx_lt_iff_mem {v : TD_String_View} (hwf : v.wf) (d : Nat) :
    chopLoop v d 0 < v.size ↔ d ∈ viewBytes v := by
  obtain ⟨g1, g2, g3, g4⟩ := chopLoop_spec v d 0 (by omega)
  constructor
  · intro h
    have hlen : chopLoop v d 0 < (viewBytes v).length := by
      rw [viewBytes_length hwf]
      exact h
    have hb : (viewBytes v).getD (chopLoop v d 0) 0 = d := by
      rw [viewBytes_getD v _ h]
      exact g3 h
    rw [← hb, List.getD_eq_getElem _ _ hlen]
    exact List.getElem_mem hlen
  · intro hmem
    by_contra hnot
    obtain ⟨j, hjlt, hjd⟩ := List.mem_iff_getElem.mp hmem
    have hjs : j < v.size := by
      rw [viewBytes_length hwf] at hjlt
      exact hjlt
    refine g4 j (by omega) (by omega) ?_
    rw [← viewBytes_getD v j hjs, List.getD_eq_getElem _ _ hjlt]
    exact hjd

theorem chop_fst (v : TD_String_View) (d : Nat) :
    (td_string_view_chop v d).1 = ⟨v.base, v.off, chopLoop v d 0⟩ := by
  simp only [td_string_view_chop]
  split <;> rfl

theorem chop_snd_found (v : TD_String_View) (d : Nat) (h : chopLoop v d 0 < v.size) :
    (td_string_view_chop v d).2 =
      ⟨v.base, v.off + (chopLoop v d 0 + 1), v.size - (chopLoop v d 0 + 1)⟩ := by
  simp only [td_string_view_chop]
  rw [if_pos h]

theorem chop_snd_miss (v : TD_String_View) (d : Nat) (h : ¬chopLoop v d 0 < v.size) :
    (td_string_view_chop v d).2 = ⟨v.base, v.off + chopLoop v d 0, 0⟩ := by
  simp only [td_string_view_chop]
  rw [if_neg h]

/-- Claim C1 (code bug): the slice clamp of `td_string_view_slice` is not
    underflow-safe.  On the 3-byte view over "abc" with `start = 5`,
    `end = 10`, the code clamps `start` against the original `end` (5 ≤ 10,
    unchanged) and only then clamps `end` to `v.size = 3`, so the `size_t`
    subtraction `end - start = 3 - 5` wraps to `2^64 - 2` and the data
    pointer is advanced 5 bytes, past the view.  The spec's clamp formula
    demands size `clamp(10,0,3) - clamp(5,0,3) = 0` and an in-bounds
    result. -/
theorem c1_slice_underflow :
    (td_string_view_slice ⟨[97, 98, 99], 0, 3⟩ 5 10).size = W64 - 2 ∧
    (td_string_view_slice ⟨[97, 98, 99], 0, 3⟩ 5 10).off = 5 ∧
    W64 - 2 ≠ 0 := by
  refine ⟨by decide, by decide, by decide⟩

/-- Claim C2 counterexample: on the vector `{data = some [7], size 1,
    alloc 1}` with requested capacity 2 and a failing `TD_REALLOC`, the
    state seen by `TD_PANIC` has `alloc = 2` (already doubled) and
    `data = NULL` (overwritten by the realloc result) — not the original
    `alloc = 1`, `data = some [7]`.  So the buffer's fields are not left
    exactly as they were. -/
theorem c2_counterexample :
    td__vec_allocFail (⟨some [7], 1, 1⟩ : TDVec Nat) 2 =
      some ⟨none, 1, 2⟩ ∧
    (some [7] : Option (List Nat)) ≠ none ∧ (1 : Nat) ≠ 2 := by
  refine ⟨?_, by decide, by decide⟩
  simp [td__vec_allocFail, growLoop]

/-- Claim C2 (amended): when `TD_REALLOC` inside `td__vec_alloc` fails,
    the `size` field is unchanged, but `alloc` has already been raised to
    the fully grown capacity (which covers the request) and `data` has
    been overwritten with the NULL returned by the failed reallocation;
    the process then aborts via `TD_PANIC`. -/
theorem c2_alloc_fail_state (α : Type) (v : TDVec α) (capacity : Nat)
    (h : v.alloc < capacity) :
    td__vec_allocFail v capacity =
      some ⟨none, v.size,
        growLoop capacity (if v.alloc = 0 then TD_VECINITSZ else v.alloc)⟩ ∧
    capacity ≤ growLoop capacity (if v.alloc = 0 then TD_VECINITSZ else v.alloc) := by
  constructor
  · unfold td__vec_allocFail
    rw [if_pos h]
  · exact growLoop_ge_cap _ _ (initAlloc_pos v.alloc)

/-- Claim C2 witness: the amended statement instantiated at the all-zero
    vector and capacity 1. -/
theorem c2_alloc_fail_state_witness :
    (vec0 Nat).alloc < 1 ∧
    (td__vec_allocFail (vec0 Nat) 1 =
       some ⟨none, 0,
         growLoop 1 (if (vec0 Nat).alloc = 0 then TD_VECINITSZ else (vec0 Nat).alloc)⟩ ∧
     1 ≤ growLoop 1 (if (vec0 Nat).alloc = 0 then TD_VECINITSZ else (vec0 Nat).alloc)) :=
  ⟨by decide, c2_alloc_fail_state Nat (vec0 Nat) 1 (by decide)⟩

/-- Claim C3 counterexample: reading a 5-byte file into a fresh string
    leaves capacity 1024 (the growth policy's initial size), not exactly
    the probed length 5. -/
theorem c3_counterexample :
    (td_read_file_to_string str0 ⟨[1, 2, 3, 4, 5], false, 5⟩).2.alloc = 1024 ∧
    (1024 : Nat) ≠ 5 := by
  refine ⟨?_, by decide⟩
  simp [td_read_file_to_string, td__vec_alloc, growLoop, toI32, str0, TD_VECINITSZ]

/-- Claim C3 (amended): before reading, `td_read_file_to_string` grows the
    target with a single call of the growth primitive `td__vec_alloc`
    requesting exactly the probed length `L`; the resulting capacity is
    the growth policy's value — at least `L`, but in general larger than
    `L` (doubling schedule), and unchanged when the capacity already
    covers `L`. -/
theorem c3_pregrow_capacity (str : TD_String) (env : FileEnv)
    (h1 : env.seekFails = false) (h2 : ¬toI32 env.tellResult < 0) :
    (td_read_file_to_string str env).2.alloc =
      (td__vec_alloc str (toI32 env.tellResult).toNat).alloc ∧
    (toI32 env.tellResult).toNat ≤ (td_read_file_to_string str env).2.alloc := by
  have hmain : (td_read_file_to_string str env).2.alloc =
      (td__vec_alloc str (toI32 env.tellResult).toNat).alloc := by
    unfold td_read_file_to_string
    rw [h1]
    simp only [Bool.false_eq_true, if_false, if_neg h2]
    split <;> rfl
  refine ⟨hmain, ?_⟩
  rw [hmain]
  exact (td__vec_alloc_alloc_ge str (toI32 env.tellResult).toNat).1

/-- Claim C3 witness: the amended statement instantiated at a fresh string
    and a 3-byte file. -/
theorem c3_pregrow_capacity_witness :
    (FileEnv.mk [7, 8, 9] false 3).seekFails = false ∧
    ¬toI32 (FileEnv.mk [7, 8, 9] false 3).tellResult < 0 ∧
    ((td_read_file_to_string str0 (FileEnv.mk [7, 8, 9] false 3)).2.alloc =
       (td__vec_alloc str0 (toI32 (FileEnv.mk [7, 8, 9] false 3).tellResult).toNat).alloc ∧
     (toI32 (FileEnv.mk [7, 8, 9] false 3).tellResult).toNat ≤
       (td_read_file_to_string str0 (FileEnv.mk [7, 8, 9] false 3)).2.alloc) :=
  ⟨by decide, by decide,
   c3_pregrow_capacity str0 (FileEnv.mk [7, 8, 9] false 3) (by decide) (by decide)⟩

/-- Claim C4 counterexample: on the string `"abc"` (size 3) with
    `start = 2`, `end = 1`, `td_string_slice` clamps `end` up to `start`
    and returns offset 2, while `td_string_view_slice` on the derived view
    clamps `start` down to `end` and returns offset 1: the two slicing
    operations do not have identical clamping semantics. -/
theorem c4_counterexample :
    (td_string_slice ⟨some [97, 98, 99], 3, 3⟩ 2 1).off = 2 ∧
    (td_string_view_slice
        (td_string_view_from_string ⟨some [97, 98, 99], 3, 3⟩) 2 1).off = 1 := by
  refine ⟨by decide, by decide⟩

/-- Claim C4 (amended): `td_string_slice s start end` and
    `td_string_view_slice (td_string_view_from_string s) start end`
    coincide (same base, same data-pointer offset, same size) whenever
    `start ≤ end` and `start ≤ s.size`; the two clamping orders diverge
    only when `start` exceeds `end` or the string's size. -/
theorem c4_slice_agree (s : TD_String) (start stop : Nat)
    (h1 : start ≤ stop) (h2 : start ≤ s.size) :
    td_string_slice s start stop =
      td_string_view_slice (td_string_view_from_string s) start stop := by
  simp only [td_string_slice, td_string_view_slice, td_string_view_from_string]
  have hss : ¬start > stop := by omega
  have hs2 : ¬start > s.size := by omega
  rw [if_neg hs2, if_neg hss]
  by_cases h3 : stop > s.size
  · rw [if_pos h3, if_neg (show ¬s.size < start by omega)]
    simp
  · rw [if_neg h3, if_neg (show ¬stop < start by omega)]
    simp

/-- Claim C4 witness: agreement at `"abc"` (size 3), `start = 1`,
    `end = 2`. -/
theorem c4_slice_agree_witness :
    (1 : Nat) ≤ 2 ∧ (1 : Nat) ≤ (⟨some [97, 98, 99], 3, 3⟩ : TD_String).size ∧
    td_string_slice ⟨some [97, 98, 99], 3, 3⟩ 1 2 =
      td_string_view_slice
        (td_string_view_from_string ⟨some [97, 98, 99], 3, 3⟩) 1 2 :=
  ⟨by decide, by decide,
   c4_slice_agree ⟨some [97, 98, 99], 3, 3⟩ 1 2 (by decide) (by decide)⟩

/-- Claim C5: starting from the all-zero vector, after any sequence of
    appends the capacity is 0 for the empty sequence and otherwise
    `TD_VECINITSZ * 2 ^ k` for some `k`; it always covers the number of
    appended items, and `size ≤ alloc` holds after every step. -/
theorem c5_growth_policy {α : Type} [Inhabited α] (items : List α) :
    (items = [] → (appendList (vec0 α) items).alloc = 0) ∧
    (items ≠ [] → ∃ k, (appendList (vec0 α) items).alloc = TD_VECINITSZ * 2 ^ k) ∧
    items.length ≤ (appendList (vec0 α) items).alloc ∧
    (∀ n, (appendList (vec0 α) (items.take n)).size ≤
      (appendList (vec0 α) (items.take n)).alloc) := by
  have hwf0 : (vec0 α).wf := ⟨Nat.le_refl 0, rfl⟩
  have hinv0 : allocInv (vec0 α) := Or.inl rfl
  obtain ⟨hsz, hwfF, hlive⟩ := appendList_spec hwf0 items
  have hinvF := appendList_inv hwf0 hinv0 items
  refine ⟨?_, ?_, ?_, ?_⟩
  · intro h
    subst h
    rfl
  · intro hne
    rcases hinvF with h0 | hk
    · exfalso
      have hlen : 0 < items.length := by
        cases items with
        | nil => exact absurd rfl hne
        | cons a t => simp
      have hle := hwfF.1
      rw [hsz] at hle
      simp only [vec0] at hle hsz h0
      omega
    · exact hk
  · have hle := hwfF.1
    rw [hsz] at hle
    simpa [vec0] using hle
  · intro n
    obtain ⟨_, hwfn, _⟩ := appendList_spec hwf0 (items.take n)
    exact hwfn.1

/-- Claim C5 witness: the statement instantiated at two appends of `Nat`
    items. -/
theorem c5_growth_policy_witness :
    ([5, 6] : List Nat) ≠ [] ∧
    (∃ k, (appendList (vec0 Nat) [5, 6]).alloc = TD_VECINITSZ * 2 ^ k) ∧
    ([5, 6] : List Nat).length ≤ (appendList (vec0 Nat) [5, 6]).alloc :=
  ⟨by decide, (c5_growth_policy [5, 6]).2.1 (by decide),
   (c5_growth_policy [5, 6]).2.2.1⟩

/-- Claim C7: for every well-formed vector state and item sequence,
    `td_vec_append_bulk` produces the same `size` and the same live
    contents `data[0 .. size)` as the corresponding sequence of single
    `td_vec_append` calls. -/
theorem c7_bulk_eq_seq {α : Type} [Inhabited α] (v : TDVec α) (items : List α)
    (hwf : v.wf) :
    (td_vec_append_bulk v items).size = (appendList v items).size ∧
    liveElems (td_vec_append_bulk v items) = liveElems (appendList v items) := by
  obtain ⟨hb1, hb2, hb3⟩ := td_vec_append_bulk_spec hwf items
  obtain ⟨hs1, hs2, hs3⟩ := appendList_spec hwf items
  exact ⟨by rw [hb1, hs1], by rw [hb3, hs3]⟩

/-- Claim C7 witness: bulk and sequential appends agree on the all-zero
    vector with items `[1, 2]`. -/
theorem c7_bulk_eq_seq_witness :
    (vec0 Nat).wf ∧
    (td_vec_append_bulk (vec0 Nat) [1, 2]).size = (appendList (vec0 Nat) [1, 2]).size ∧
    liveElems (td_vec_append_bulk (vec0 Nat) [1, 2]) =
      liveElems (appendList (vec0 Nat) [1, 2]) :=
  ⟨by decide, (c7_bulk_eq_seq (vec0 Nat) [1, 2] (by decide)).1,
   (c7_bulk_eq_seq (vec0 Nat) [1, 2] (by decide)).2⟩

/-- Claim C9: truncating a well-formed vector by `M ≤ size` changes only
    the `size` field (data pointer, capacity and stored cells untouched),
    and then appending `M` items yields live contents equal to the
    untouched pre-truncation prefix followed by the new items, with the
    original size restored. -/
theorem c9_truncate_append {α : Type} [Inhabited α] (v : TDVec α) (M : Nat)
    (items : List α) (hwf : v.wf) (hM : M ≤ v.size) (hlen : items.length = M) :
    (td_vec_truncate v M).data = v.data ∧
    (td_vec_truncate v M).alloc = v.alloc ∧
    (appendList (td_vec_truncate v M) items).size = v.size ∧
    liveElems (appendList (td_vec_truncate v M) items) =
      (liveElems v).take (v.size - M) ++ items := by
  have hwft : (td_vec_truncate v M).wf := by
    refine ⟨?_, hwf.2⟩
    have := hwf.1
    simp only [td_vec_truncate]
    omega
  obtain ⟨h1, h2, h3⟩ := appendList_spec hwft items
  refine ⟨rfl, rfl, ?_, ?_⟩
  · rw [h1]
    simp only [td_vec_truncate]
    omega
  · rw [h3]
    congr 1
    simp only [liveElems, td_vec_truncate, List.take_take]
    rw [Nat.min_eq_left (by omega)]

/-- Claim C9 witness: the statement instantiated at the vector
    `{data = some [7, 8], size 2, alloc 2}`, truncation by 1 and one new
    item. -/
theorem c9_truncate_append_witness :
    (⟨some [7, 8], 2, 2⟩ : TDVec Nat).wf ∧ (1 : Nat) ≤ 2 ∧
      ([9] : List Nat).length = 1 ∧
    liveElems (appendList (td_vec_truncate (⟨some [7, 8], 2, 2⟩ : TDVec Nat) 1) [9]) =
      (liveElems (⟨some [7, 8], 2, 2⟩ : TDVec Nat)).take (2 - 1) ++ [9] :=
  ⟨by decide, by decide, by decide,
   (c9_truncate_append (⟨some [7, 8], 2, 2⟩ : TDVec Nat) 1 [9]
     (by decide) (by decide) (by decide)).2.2.2⟩

/-- The view over the 5 bytes of `"a,b,c"`. -/
def vabc : TD_String_View := ⟨[97, 44, 98, 44, 99], 0, 5⟩

/-- First chop of `"a,b,c"` by `,` (byte 44). -/
def chopStep1 : TD_String_View × TD_String_View := td_string_view_chop vabc 44

/-- Second chop. -/
def chopStep2 : TD_String_View × TD_String_View := td_string_view_chop chopStep1.2 44

/-- Third chop. -/
def chopStep3 : TD_String_View × TD_String_View := td_string_view_chop chopStep2.2 44

/-- Fourth chop (on the now-empty view). -/
def chopStep4 : TD_String_View × TD_String_View := td_string_view_chop chopStep3.2 44

/-- Claim C6: for every well-formed view and delimiter,
    `td_string_view_chop` returns the prefix up to but excluding the first
    occurrence of the delimiter (same base and data pointer, bytes equal
    to the longest delimiter-free prefix), and advances the input view
    just past the delimiter when one is found, or returns the entire
    remaining view and leaves the input empty when none is found.
    Concretely, chopping `"a,b,c"` by `,` yields "a", "b", "c", after
    which the view is empty and a further chop returns the empty view and
    leaves the view unchanged. -/
theorem c6_chop (v : TD_String_View) (d : Nat) (hwf : v.wf) :
    (viewBytes (td_string_view_chop v d).1 =
       (viewBytes v).takeWhile (fun b => b != d) ∧
     (td_string_view_chop v d).1.base = v.base ∧
     (td_string_view_chop v d).1.off = v.off ∧
     (if d ∈ viewBytes v then
        (td_string_view_chop v d).2.off =
          v.off + ((td_string_view_chop v d).1.size + 1) ∧
        (td_string_view_chop v d).2.size =
          v.size - ((td_string_view_chop v d).1.size + 1) ∧
        viewBytes (td_string_view_chop v d).2 =
          (viewBytes v).drop ((td_string_view_chop v d).1.size + 1)
      else
        (td_string_view_chop v d).1.size = v.size ∧
        (td_string_view_chop v d).2.size = 0 ∧
        viewBytes (td_string_view_chop v d).2 = [])) ∧
    (viewBytes chopStep1.1 = [97] ∧ viewBytes chopStep2.1 = [98] ∧
     viewBytes chopStep3.1 = [99] ∧ chopStep3.2.size = 0 ∧
     viewBytes chopStep4.1 = [] ∧ chopStep4.2 = chopStep3.2) := by
  obtain ⟨g1, g2, g3, g4⟩ := chopLoop_spec v d 0 (Nat.zero_le _)
  have hfst := chop_fst v d
  constructor
  · refine ⟨?_, by rw [hfst], by rw [hfst], ?_⟩
    · rw [hfst, viewBytes_take v _ g2, chopIdx_takeWhile hwf d]
    · by_cases hm : d ∈ viewBytes v
      · rw [if_pos hm]
        have hlt : chopLoop v d 0 < v.size := (chopIdx_lt_iff_mem hwf d).mpr hm
        have hsnd := chop_snd_found v d hlt
        rw [hfst, hsnd]
        exact ⟨rfl, rfl, viewBytes_drop v (chopLoop v d 0 + 1)⟩
      · rw [if_neg hm]
        have hge : ¬chopLoop v d 0 < v.size := fun hlt =>
          hm ((chopIdx_lt_iff_mem hwf d).mp hlt)
        have hsnd := chop_snd_miss v d hge
        rw [hfst, hsnd]
        refine ⟨?_, rfl, by simp [viewBytes]⟩
        show chopLoop v d 0 = v.size
        omega
  · refine ⟨?_, ?_, ?_, ?_, ?_, ?_⟩ <;>
      simp [chopStep1, chopStep2, chopStep3, chopStep4, td_string_view_chop,
        chopLoop, byteAt, viewBytes, vabc]

/-- Claim C6 witness: the general part instantiated at the well-formed
    view over `"a,b,c"`. -/
theorem c6_chop_witness :
    vabc.wf ∧
    viewBytes (td_string_view_chop vabc 44).1 =
      (viewBytes vabc).takeWhile (fun b => b != 44) :=
  ⟨by decide, (c6_chop vabc 44 (by decide)).1.1⟩

/-- Claim C10: for every well-formed view, the prefix returned by
    `td_string_view_chop` contains no occurrence of the delimiter, the
    updated view's bytes are a suffix of the original view's bytes, the
    prefix size plus the updated size plus one (if the delimiter occurs)
    or zero (if not) equals the original size, and on non-empty input the
    updated view is strictly smaller. -/
theorem c10_chop_frame (v : TD_String_View) (d : Nat) (hwf : v.wf) :
    d ∉ viewBytes (td_string_view_chop v d).1 ∧
    List.IsSuffix (viewBytes (td_string_view_chop v d).2) (viewBytes v) ∧
    (td_string_view_chop v d).1.size + (td_string_view_chop v d).2.size +
      (if d ∈ viewBytes v then 1 else 0) = v.size ∧
    (0 < v.size → (td_string_view_chop v d).2.size < v.size) := by
  obtain ⟨g1, g2, g3, g4⟩ := chopLoop_spec v d 0 (Nat.zero_le _)
  have hfst := chop_fst v d
  have hnm : d ∉ viewBytes (td_string_view_chop v d).1 := by
    rw [hfst, viewBytes_take v _ g2, ← chopIdx_takeWhile hwf d]
    intro hmem
    have := List.mem_takeWhile_imp hmem
    simp at this
  refine ⟨hnm, ?_, ?_, ?_⟩
  · by_cases hlt : chopLoop v d 0 < v.size
    · rw [chop_snd_found v d hlt, viewBytes_drop v (chopLoop v d 0 + 1)]
      exact List.drop_suffix _ _
    · rw [chop_snd_miss v d hlt]
      have : viewBytes ⟨v.base, v.off + chopLoop v d 0, 0⟩ = [] := by
        simp [viewBytes]
      rw [this]
      exact List.nil_suffix
  · by_cases hlt : chopLoop v d 0 < v.size
    · rw [if_pos ((chopIdx_lt_iff_mem hwf d).mp hlt), hfst, chop_snd_found v d hlt]
      simp only []
      omega
    · rw [if_neg (fun hm => hlt ((chopIdx_lt_iff_mem hwf d).mpr hm)), hfst,
        chop_snd_miss v d hlt]
      simp only []
      omega
  · intro hpos
    by_cases hlt : chopLoop v d 0 < v.size
    · rw [chop_snd_found v d hlt]
      simp only []
      omega
    · rw [chop_snd_miss v d hlt]
      simpa using hpos

/-- Claim C10 witness: the statement instantiated at the view over
    `"a,b,c"` and delimiter `,`. -/
theorem c10_chop_frame_witness :
    vabc.wf ∧ 44 ∉ viewBytes (td_string_view_chop vabc 44).1 :=
  ⟨by decide, (c10_chop_frame vabc 44 (by decide)).1⟩

theorem toI32_small (t : Int) (h0 : 0 ≤ t) (h1 : t < 2 ^ 31) : toI32 t = t := by
  unfold toI32
  rw [Int.emod_eq_of_lt (by omega) (by omega)]
  omega

/-- Claim C8 (amended): `td_read_file_to_string` returns false when
    seeking fails, when a negative probed length is observed, or when the
    number of bytes actually read differs from the probed length; and on a
    successful run over a file of `K` bytes whose honest length probe fits
    in the `i32` local `file_size` (`K < 2^31`) it returns true with
    `size = K` and live bytes identical to the file's contents.  The
    `K < 2^31` bound is necessary: the unchecked `long` to `i32`
    conversion at tdlib.h line 408 wraps larger lengths, and for
    `K >= 2^32` the wrapped value can be small and non-negative, making
    the function report success with `size = K mod 2^32`, not `K` (see
    the counterexample below). -/
theorem c8_read_file (str : TD_String) (env : FileEnv) :
    (env.seekFails = true → td_read_file_to_string str env = (false, str)) ∧
    (env.seekFails = false → toI32 env.tellResult < 0 →
      td_read_file_to_string str env = (false, str)) ∧
    (env.seekFails = false → ¬toI32 env.tellResult < 0 →
      min (toI32 env.tellResult).toNat env.contents.length ≠
        (toI32 env.tellResult).toNat →
      (td_read_file_to_string str env).1 = false) ∧
    (str.wf → env.seekFails = false →
      env.tellResult = (env.contents.length : Int) →
      (env.contents.length : Int) < 2 ^ 31 →
      (td_read_file_to_string str env).1 = true ∧
      (td_read_file_to_string str env).2.size = env.contents.length ∧
      liveElems (td_read_file_to_string str env).2 = env.contents) := by
  refine ⟨?_, ?_, ?_, ?_⟩
  · intro h
    unfold td_read_file_to_string
    rw [h]
    simp
  · intro h1 h2
    unfold td_read_file_to_string
    rw [h1]
    simp only [Bool.false_eq_true, if_false, if_pos h2]
  · intro h1 h2 h3
    unfold td_read_file_to_string
    rw [h1]
    simp only [Bool.false_eq_true, if_false, if_neg h2, if_pos h3]
  · intro hwf h1 htell hlt
    have hto : toI32 env.tellResult = (env.contents.length : Int) := by
      rw [htell]
      exact toI32_small _ (by omega) hlt
    unfold td_read_file_to_string
    rw [h1]
    simp only [Bool.false_eq_true, if_false, hto]
    rw [if_neg (show ¬((env.contents.length : Int) < 0) by omega)]
    simp only [Int.toNat_natCast, min_self, List.take_length, ne_eq,
      eq_self_iff_true, not_true_eq_false, if_false]
    refine ⟨trivial, trivial, ?_⟩
    by_cases hK : env.contents.length = 0
    · have hnil : env.contents = [] := List.eq_nil_of_length_eq_zero hK
      simp [liveElems, hnil]
    · have hwf1 := (td__vec_alloc_wf hwf env.contents.length).1
      have hge := td__vec_alloc_alloc_ge str env.contents.length
      obtain ⟨d1, hd1, hlen1⟩ := wf_data_some hwf1 (by omega)
      simp only [liveElems, hd1, Option.map_some', Option.getD_some, memcpyAt,
        List.take_zero, List.nil_append, Nat.zero_add, List.take_length]
      exact List.take_left _ _

/-- Claim C8 witness: a successful ingest of the 3-byte file `[7, 8, 9]`
    into a fresh string. -/
theorem c8_read_file_witness :
    str0.wf ∧ (FileEnv.mk [7, 8, 9] false 3).seekFails = false ∧
    (FileEnv.mk [7, 8, 9] false 3).tellResult =
      ((FileEnv.mk [7, 8, 9] false 3).contents.length : Int) ∧
    ((FileEnv.mk [7, 8, 9] false 3).contents.length : Int) < 2 ^ 31 ∧
    ((td_read_file_to_string str0 (FileEnv.mk [7, 8, 9] false 3)).1 = true ∧
     (td_read_file_to_string str0 (FileEnv.mk [7, 8, 9] false 3)).2.size =
       (FileEnv.mk [7, 8, 9] false 3).contents.length ∧
     liveElems (td_read_file_to_string str0 (FileEnv.mk [7, 8, 9] false 3)).2 =
       (FileEnv.mk [7, 8, 9] false 3).contents) :=
  ⟨by decide, by decide, by decide, by decide,
   (c8_read_file str0 (FileEnv.mk [7, 8, 9] false 3)).2.2.2
     (by decide) (by decide) (by decide) (by decide)⟩

/-- Claim C8 counterexample: the claim as frozen is false of the code for
    files of 2^32 bytes or more.  A file of K = 2^32 + 5 = 4294967301
    bytes with an honest `ftell` probe (the probe equals the file length)
    survives every failure check: the `i32` local `file_size` receives the
    wrapped value 5, `fread` delivers exactly those 5 bytes, and the call
    returns true with `target->size = 5`, not `K`. -/
theorem c8_counterexample :
    (td_read_file_to_string str0
        ⟨List.replicate 4294967301 0, false, (4294967301 : Int)⟩).1 = true ∧
    (td_read_file_to_string str0
        ⟨List.replicate 4294967301 0, false, (4294967301 : Int)⟩).2.size = 5 ∧
    ((List.replicate 4294967301 (0 : Nat)).length : Int) = (4294967301 : Int) ∧
    (4294967301 : Nat) = 2 ^ 32 + 5 ∧ (5 : Nat) ≠ 4294967301 := by
  have hto : toI32 (4294967301 : Int) = 5 := by decide
  refine ⟨?_, ?_, by rw [List.length_replicate]; norm_num, by norm_num, by norm_num⟩
  all_goals
    unfold td_read_file_to_string
    simp only [Bool.false_eq_true, if_false, hto]
    rw [if_neg (show ¬((5 : Int) < 0) by decide)]
    simp only [List.length_replicate]
    rw [show Int.toNat 5 = 5 from rfl]
    rw [show min (5 : Nat) 4294967301 = 5 by omega]
    rw [if_neg (show ¬((5 : Nat) ≠ 5) by omega)]
